import Mathlib

/-!
A shallow embedding of `cargo-fmt-toml` (`src/main.rs`), a formatter for
Cargo.toml manifests built on the `toml_edit` document model, together with
proofs and refutations of the specification's claims.

Modelling conventions:

* Manifest text is a `List String` of lines (the Rust code itself scans
  `original_str.lines()`; a file's text is each line followed by a newline).
* The `toml_edit` document tree is embedded as `Item`/`Doc` below.  Scalar
  values are kept as their raw rendered text (everything after the `=` of a
  key-value line, verbatim).  Decoration (comments and blank lines) is kept
  verbatim as lists of raw lines: on the key of a key-value pair (dropped by
  `Table::remove`, exactly as in `toml_edit`, where `remove` returns only the
  `Item` and `insert` makes a fresh `Key` with default decor), and on a
  bracketed table itself for its header decoration (which travels with the
  `Item`).
* `toml_edit` serialization is modelled faithfully: table blocks are emitted
  in the order of their recorded document positions (a stable sort, as in
  `Display for DocumentMut`), a table's scalar values are emitted inside its
  own block before any nested-table child blocks, dotted tables are emitted
  as dotted key-value lines, and implicit tables without values emit no
  header.
* The model parser covers the fragment of TOML these manifests use: bare
  (possibly dotted) bracketed headers, array-of-tables headers, bare-key
  `key = value` lines with single-line values, comment and blank lines.
  Inputs outside the fragment parse to `none`.
* Rust's `Vec::sort` on `String` is a stable sort by byte-lexicographic
  order; for UTF-8 text this order coincides with lexicographic order on
  unicode scalar values, which is what `strLe` below compares.  The stable
  sort itself is embedded as `List.insertionSort` (any two stable sorts by
  the same relation agree).
-/

namespace FmtToml

/-- ASCII whitespace test used by the model's `trim` (Rust trims
`char::is_whitespace`; manifest lines only ever contain these). -/
def isWsChar (c : Char) : Bool :=
  c == ' ' || c == '\t' || c == '\r'

/-- Strip leading and trailing whitespace characters, as Rust `str::trim`. -/
def trimChars (cs : List Char) : List Char :=
  ((cs.dropWhile isWsChar).reverse.dropWhile isWsChar).reverse

/-- Model of Rust `line.trim()`. -/
def strTrim (s : String) : String :=
  (trimChars s.data).asString

/-- Model of Rust `str::starts_with` for a literal pattern. -/
def strStarts (s pat : String) : Bool :=
  s.data.take pat.data.length == pat.data

/-- Index of the first `']'` in the character list, as Rust `find(']')`. -/
def findRBracket (cs : List Char) : Option Nat :=
  cs.findIdx? (· == ']')

/-- Index of the first occurrence of `"]]"`, as Rust `find("]]")`. -/
def findRBrackets2 : List Char → Option Nat
  | [] => none
  | [_] => none
  | a :: b :: rest =>
    if a == ']' && b == ']' then some 0
    else (findRBrackets2 (b :: rest)).map (· + 1)

/-- `cs[lo..hi]` as a string, as a Rust subslice `s[lo..hi]`. -/
def sliceStr (cs : List Char) (lo hi : Nat) : String :=
  ((cs.drop lo).take (hi - lo)).asString

/-- Split a bare dotted name on `'.'`, as TOML header-path splitting for
bare keys. -/
def splitDots (s : String) : List String :=
  (s.data.splitOn '.').map List.asString

/-- Byte-lexicographic comparison of strings (Rust `String`'s `Ord`): for
UTF-8, comparing the byte sequences is the same as comparing the sequences
of unicode scalar values, done here position by position. -/
def lexLeCh : List Char → List Char → Bool
  | [], _ => true
  | _ :: _, [] => false
  | a :: as, b :: bs =>
    if a.toNat < b.toNat then true
    else if b.toNat < a.toNat then false
    else lexLeCh as bs

/-- The order by which Rust's `sort` arranges the key `String`s. -/
def strLe (a b : String) : Prop :=
  lexLeCh a.data b.data = true

instance : DecidableRel strLe := fun a b => by
  unfold strLe; infer_instance

instance : IsTotal String strLe := by
  constructor
  intro a b
  show lexLeCh a.data b.data = true ∨ lexLeCh b.data a.data = true
  generalize a.data = as
  generalize b.data = bs
  induction as generalizing bs with
  | nil => left; rfl
  | cons x xs ih =>
    cases bs with
    | nil => right; rfl
    | cons y ys =>
      rcases Nat.lt_trichotomy x.toNat y.toNat with h | h | h
      · left; simp [lexLeCh, h]
      · rcases ih ys with h' | h'
        · left; simp [lexLeCh, h, h']
        · right; simp [lexLeCh, h, h']
      · right; simp [lexLeCh, h]

instance : IsTrans String strLe := by
  constructor
  intro a b c
  show lexLeCh a.data b.data = true → lexLeCh b.data c.data = true →
    lexLeCh a.data c.data = true
  generalize a.data = as
  generalize b.data = bs
  generalize c.data = cs
  induction as generalizing bs cs with
  | nil => intro _ _; rfl
  | cons x xs ih =>
    cases bs with
    | nil => intro hab _; simp [lexLeCh] at hab
    | cons y ys =>
      cases cs with
      | nil => intro _ hbc; simp [lexLeCh] at hbc
      | cons z zs =>
        intro hab hbc
        simp only [lexLeCh] at hab hbc ⊢
        by_cases hxy : x.toNat < y.toNat <;> by_cases hyx : y.toNat < x.toNat <;>
          by_cases hyz : y.toNat < z.toNat <;> by_cases hzy : z.toNat < y.toNat <;>
          simp only [hxy, hyx, hyz, hzy, if_true, if_false, ite_true, ite_false,
            if_pos, if_neg, not_false_iff] at hab hbc ⊢ <;>
        first
          | exact absurd hab (by decide)
          | exact absurd hbc (by decide)
          | omega
          | (rw [if_pos (by omega)])
          | (rw [if_neg (by omega), if_neg (by omega)]; exact ih _ _ hab hbc)

/-! ## The `toml_edit` document model

`Item` mirrors `toml_edit::Item` for the fragment these manifests use:

* `value raw` is `Item::Value`; `raw` is the rendered text of the value with
  its decor, i.e. everything after the `=` of its key-value line, verbatim.
* `table impl dotted pos dec entries` is `Item::Table`: the `implicit` flag,
  the `is_dotted` flag, the table's document position (`Table::position`,
  used by serialization to order blocks), the raw decor lines preceding the
  table's header, and the ordered entries.
* `aot elems` is `Item::ArrayOfTables`; each element carries its position,
  header decor and entries.

An entry is `(key decor lines, key, item)`; the key decor lines are the
comment/blank lines preceding the key-value pair, held by the `Key` in
`toml_edit` (and therefore lost by `remove`/`insert`, which return and take
only `Item`s). -/

inductive Item : Type where
  | value (raw : String)
  | table (impl : Bool) (dotted : Bool) (pos : Option Nat) (dec : List String)
      (entries : List (List String × String × Item))
  | aot (elems : List (Option Nat × List String × List (List String × String × Item)))
deriving Repr

instance : Inhabited Item := ⟨.value ""⟩

/-- One key-value slot of a table: key decor lines, key, item. -/
abbrev Entry := List String × String × Item

abbrev Entries := List Entry

def ePre (e : Entry) : List String := e.1

def eKey (e : Entry) : String := e.2.1

def eItem (e : Entry) : Item := e.2.2

/-- A parsed document: the root table's entries plus trailing decor lines
(`DocumentMut::trailing`). -/
structure Doc : Type where
  root : Entries
  trailing : List String
deriving Repr

/-! ### Table primitives (the `toml_edit` map operations the tool uses) -/

/-- `Table::get`: the item of the (unique) entry with the given key. -/
def tblGet : Entries → String → Option Item
  | [], _ => none
  | e :: rest, k => if eKey e = k then some (eItem e) else tblGet rest k

/-- Mutation through `Table::get_mut`: replace the item of the entry with
the given key, leaving its key (and key decor) in place. -/
def replaceItem : Entries → String → Item → Entries
  | [], _, _ => []
  | e :: rest, k, it =>
    if eKey e = k then (e.1, e.2.1, it) :: rest
    else e :: replaceItem rest k it

/-- `Table::remove` (a `shift_remove`): delete the entry, returning only its
`Item` — the key's decor is discarded. -/
def removeFirst : Entries → String → Option Item × Entries
  | [], _ => (none, [])
  | e :: rest, k =>
    if eKey e = k then (some (eItem e), rest)
    else
      let r := removeFirst rest k
      (r.1, e :: r.2)

/-- `Table::insert`: a fresh `Key` with default (empty) decor; an existing
slot keeps its place, a new key is appended at the end. -/
def tblInsert (t : Entries) (k : String) (it : Item) : Entries :=
  if (tblGet t k).isSome then
    (t.map fun e => if eKey e = k then ([], k, it) else e)
  else t ++ [([], k, it)]

/-- `BTreeMap::insert` on the scratch map used while reordering. -/
def alInsert (m : List (String × Item)) (k : String) (it : Item) :
    List (String × Item) :=
  if m.any (fun p => p.1 = k) then
    m.map fun p => if p.1 = k then (k, it) else p
  else m ++ [(k, it)]

/-- `BTreeMap::remove` on the scratch map. -/
def alRemove : List (String × Item) → String → Option Item × List (String × Item)
  | [], _ => (none, [])
  | p :: rest, k =>
    if p.1 = k then (some p.2, rest)
    else
      let r := alRemove rest k
      (r.1, p :: r.2)

/-- One step of the removal loop shared by `sort_table_in_place` and
`format_package_section`: `if let Some(item) = table.remove(key) {
entries.insert(key, item); }`. -/
def drainStep (acc : Entries × List (String × Item)) (k : String) :
    Entries × List (String × Item) :=
  match removeFirst acc.1 k with
  | (some it, rest) => (rest, alInsert acc.2 k it)
  | (none, rest) => (rest, acc.2)

/-- The removal loop: drain the listed keys from the table into the scratch
map. -/
def drainByKeys (t : Entries) (keys : List String) :
    Entries × List (String × Item) :=
  keys.foldl drainStep (t, [])

/-- One step of the reinsertion loop shared by `sort_table_in_place` and
`format_package_section`: `if let Some(item) = entries.remove(key) {
table.insert(key, item); }`. -/
def reinsertStep (acc : Entries × List (String × Item)) (k : String) :
    Entries × List (String × Item) :=
  match alRemove acc.2 k with
  | (some it, rest) => (tblInsert acc.1 k it, rest)
  | (none, rest) => (acc.1, rest)

/-- The reinsertion loop: put the scratch map's items back in the order of
the listed keys. -/
def reinsertByKeys (t : Entries) (m : List (String × Item))
    (keys : List String) : Entries :=
  (keys.foldl reinsertStep (t, m)).1

/-! ### Table Collapser (`collapse_table_entries`, src/main.rs:310-352) -/

/-- `Item::as_value()`: `Some` exactly for `Item::Value`. -/
def asValue : Item → Option String
  | .value raw => some raw
  | _ => none

/-- The convertibility loop over an inner table's children: all immediate
children as `(key, value)` pairs in order, or `none` as soon as one child is
not a plain value. -/
def childValues : Entries → Option (List (String × String))
  | [] => some []
  | (_, k, it) :: rest =>
    match asValue it with
    | some raw => (childValues rest).map ((k, raw) :: ·)
    | none => none

/-- Rendering of the `InlineTable` built from cloned child values, e.g.
`\x7b version = "1.0" \x7d`. -/
def renderInline (kvs : List (String × String)) : String :=
  match kvs with
  | [] => "\x7b\x7d"
  | _ =>
    "\x7b" ++ String.intercalate "," (kvs.map fun kv => " " ++ kv.1 ++ " =" ++ kv.2) ++ " \x7d"

/-- The raw text assigned in place of a collapsed entry (an inline-table
value with its default one-space decor after the `=`). -/
def inlineRaw (kvs : List (String × String)) : String :=
  " " ++ renderInline kvs

/-- The body of the collection loop of `collapse_table_entries`: look the
key up, skip anything that is not a nested table (`let Some(Item::Table(..))
else continue`), skip dotted tables, and produce the inline pairs when every
child is a plain value. -/
def collapseRepFor (t : Entries) (k : String) :
    Option (String × List (String × String)) :=
  match tblGet t k with
  | some (.table _ dotted _ _ inner) =>
    if dotted then none
    else
      match childValues inner with
      | some kvs => some (k, kvs)
      | none => none
  | _ => none

/-- The collection loop of `collapse_table_entries`: for each key of the
table, the entry's inline-table replacement when the entry is a convertible
non-dotted nested table. -/
def collapseReps (t : Entries) : List (String × List (String × String)) :=
  (t.map eKey).filterMap (collapseRepFor t)

/-- The application step of `collapse_table_entries`: write the inline
value through `get_mut` (or insert it, were the key absent), counting one
change. -/
def collapseApply (acc : Entries × Nat) (r : String × List (String × String)) :
    Entries × Nat :=
  if (tblGet acc.1 r.1).isSome then
    (replaceItem acc.1 r.1 (.value (inlineRaw r.2)), acc.2 + 1)
  else
    (tblInsert acc.1 r.1 (.value (inlineRaw r.2)), acc.2 + 1)

/-- Port of `collapse_table_entries`: collect the convertible non-dotted
nested tables, then replace each with the inline table built from its
children, counting one change per replacement. -/
def collapseTableEntries (t : Entries) : Entries × Nat :=
  (collapseReps t).foldl collapseApply (t, 0)

/-- Characterization device for the theorems below: the inline pairs of a
convertible item — `some` exactly for a non-dotted nested table all of whose
immediate children are plain values. -/
def convInfo : Item → Option (List (String × String))
  | .table _ dotted _ _ inner => if dotted then none else childValues inner
  | _ => none

/-- Characterization device: the replacement list entry by entry (equal to
`collapseReps` on tables with distinct keys, by `collapseReps_eq`). -/
def repsOf : Entries → List (String × List (String × String))
  | [] => []
  | e :: rest =>
    match convInfo (eItem e) with
    | some kvs => (eKey e, kvs) :: repsOf rest
    | none => repsOf rest

/-- Characterization device: what the collapse does to a single entry —
convertible entries become the inline value, all others stay untouched. -/
def collapseStep (e : Entry) : Entry :=
  match convInfo (eItem e) with
  | some kvs => (e.1, e.2.1, Item.value (inlineRaw kvs))
  | none => e

/-! ### `collapse_nested_tables` (src/main.rs:268-308) -/

def depSections : List String :=
  ["dependencies", "dev-dependencies", "build-dependencies"]

/-- One iteration of the dependency-section loop: collapse the section's
entries and, when at least one entry collapsed, mark the section table
explicit. -/
def collapseDepsSection (d : Doc) (s : String) : Doc × Nat :=
  match tblGet d.root s with
  | some (.table im dt p dec es) =>
    let r := collapseTableEntries es
    if r.2 > 0 then
      ({ d with root := replaceItem d.root s (.table false dt p dec r.1) }, r.2)
    else
      ({ d with root := replaceItem d.root s (.table im dt p dec r.1) }, 0)
  | _ => (d, 0)

/-- One iteration of the `[target]` loop in `collapse_nested_tables`: for a
target configuration item, collapse its `dependencies` table (if any) and
mark that table explicit when something collapsed. -/
def collapseTargetOne (cfg : Item) : Item × Nat :=
  match cfg with
  | .table im dt p dec es =>
    match tblGet es "dependencies" with
    | some (.table dim ddt dp ddec des) =>
      let r := collapseTableEntries des
      if r.2 > 0 then
        (.table im dt p dec (replaceItem es "dependencies" (.table false ddt dp ddec r.1)), r.2)
      else
        (.table im dt p dec (replaceItem es "dependencies" (.table dim ddt dp ddec r.1)), 0)
    | _ => (cfg, 0)
  | _ => (cfg, 0)

/-- `iter_mut` over a table's items, applying an item transformation and
summing the change counts. -/
def mapCount (f : Item → Item × Nat) : Entries → Entries × Nat
  | [] => ([], 0)
  | (pre, k, it) :: rest =>
    let r := f it
    let rr := mapCount f rest
    ((pre, k, r.1) :: rr.1, r.2 + rr.2)

/-- The `[package]` branch of `collapse_nested_tables`: collapse inside the
package table, without touching its implicit flag. -/
def collapsePkgStep (d : Doc) : Doc × Nat :=
  match tblGet d.root "package" with
  | some (.table im dt p dec es) =>
    let r := collapseTableEntries es
    ({ d with root := replaceItem d.root "package" (.table im dt p dec r.1) }, r.2)
  | _ => (d, 0)

/-- The dependency-section loop of `collapse_nested_tables`. -/
def collapseDepsFold (d : Doc) : Doc × Nat :=
  depSections.foldl
    (fun acc s =>
      let r := collapseDepsSection acc.1 s
      (r.1, acc.2 + r.2))
    (d, 0)

/-- The `[target]` loop of `collapse_nested_tables`. -/
def collapseTargetStep (d : Doc) : Doc × Nat :=
  match tblGet d.root "target" with
  | some (.table im dt p dec es) =>
    let r := mapCount collapseTargetOne es
    ({ d with root := replaceItem d.root "target" (.table im dt p dec r.1) }, r.2)
  | _ => (d, 0)

/-- Port of `collapse_nested_tables`: collapse inside `[package]` (without
touching its implicit flag), inside each flat dependency section (marking it
explicit on change), and inside each `[target.*]` configuration's
`dependencies` table (marking it explicit on change). -/
def collapseNestedTables (d : Doc) : Doc × Nat :=
  let pkg := collapsePkgStep d
  let deps := collapseDepsFold pkg.1
  let tgt := collapseTargetStep deps.1
  (tgt.1, pkg.2 + deps.2 + tgt.2)

/-! ### Key Sorter (`sort_table_in_place`, src/main.rs:524-550) -/

/-- Port of `sort_table_in_place`: compare the current key sequence with its
stable byte-lexicographic sort; when they differ, drain every entry into a
scratch map and reinsert in sorted order, reporting a single change. -/
def sortTableInPlace (t : Entries) : Entries × Nat :=
  let currentKeys := t.map eKey
  let sortedKeys := List.insertionSort strLe currentKeys
  if currentKeys = sortedKeys then (t, 0)
  else
    let dr := drainByKeys t currentKeys
    (reinsertByKeys dr.1 dr.2 sortedKeys, 1)

/-- Port of `sort_dependencies` (src/main.rs:516-522). -/
def sortDependencies (d : Doc) (s : String) : Doc × Nat :=
  match tblGet d.root s with
  | some (.table im dt p dec es) =>
    let r := sortTableInPlace es
    ({ d with root := replaceItem d.root s (.table im dt p dec r.1) }, r.2)
  | _ => (d, 0)

/-! ### Package-Section Orderer (`format_package_section`, src/main.rs:459-514) -/

def pkgOrder : List String :=
  ["name", "description", "version", "edition", "license-file", "authors",
   "rust-version", "readme"]

/-- Port of `format_package_section`: canonical keys first (those present),
then the remaining keys in original relative order; when the current order
differs, drain and reinsert, reporting a single change. -/
def formatPackageSection (d : Doc) : Doc × Nat :=
  match tblGet d.root "package" with
  | some (.table im dt p dec es) =>
    let currentKeys := es.map eKey
    let expected :=
      pkgOrder.filter (fun k => (tblGet es k).isSome)
        ++ currentKeys.filter (fun k => ¬ pkgOrder.contains k)
    if currentKeys = expected then (d, 0)
    else
      let dr := drainByKeys es currentKeys
      let es' := reinsertByKeys dr.1 dr.2 expected
      ({ d with root := replaceItem d.root "package" (.table im dt p dec es') }, 1)
  | _ => (d, 0)

/-! ### Serialization (`Display for DocumentMut` in `toml_edit`)

The document display collects every table (and array-of-tables element) in
tree order, each with the last seen document position, stable-sorts the
blocks by position, and emits each block as its header decor, its header
line, and its scalar key-value lines.  A table's scalar values (including
dotted-table leaves, with dotted keys) are emitted inside its own block; an
implicit table with no values emits no header. -/

/-- Recursion fuel for the serializer's traversal into nested tables.  The
traversals below recurse structurally on this fuel, consuming one unit per
nesting level only (siblings are folded without consuming fuel), so any
document nested less than a hundred tables deep — i.e. any document of the
modelled manifest fragment — is traversed exactly. -/
def printFuel : Nat := 100

/-- `Table::get_values` (fueled): the table's immediate values in order,
recursing through dotted tables with compound dotted keys; non-dotted child
tables and arrays-of-tables are not values and are skipped. -/
def getValuesF : Nat → Entries → List (List String × String × String)
  | 0, _ => []
  | fuel + 1, t =>
    t.foldr
      (fun e acc =>
        match e with
        | (pre, k, .value raw) => (pre, k, raw) :: acc
        | (pre, k, .table _ true _ _ inner) =>
          ((getValuesF fuel inner).map fun v =>
            (pre ++ v.1, k ++ "." ++ v.2.1, v.2.2)) ++ acc
        | (_, _, .table _ false _ _ _) => acc
        | (_, _, .aot _) => acc)
      []

def getValuesE (t : Entries) : List (List String × String × String) :=
  getValuesF printFuel t

/-- One serialized block: its sort position, header decor lines, header
(path text and whether it is an array-of-tables element; `none` for the
root block), the implicit flag, and the value lines' data. -/
structure PBlock : Type where
  pos : Nat
  dec : List String
  header : Option (String × Bool)
  impl : Bool
  kvs : List (List String × String × String)
deriving Repr

/-- Tree-order traversal collecting the document's table blocks
(`visit_nested_tables`, fueled): fold over a table's children threading the
last seen document position; a non-dotted table contributes its own block
followed by its children's blocks, and an array-of-tables contributes one
block per element followed by that element's children's blocks. -/
def gatherF : Nat → String → Nat → Entries → Nat × List PBlock
  | 0, _, lastPos, _ => (lastPos, [])
  | fuel + 1, path, lastPos, t =>
    t.foldl
      (fun acc e =>
        match e with
        | (_, _, .value _) => acc
        | (_, k, .table im dotted pos dec es) =>
          if dotted then acc
          else
            let p := pos.getD acc.1
            let childPath := if path = "" then k else path ++ "." ++ k
            let inner := gatherF fuel childPath p es
            (inner.1,
              acc.2 ++
                ({ pos := p, dec := dec, header := some (childPath, false),
                   impl := im, kvs := getValuesE es } :: inner.2))
        | (_, k, .aot elems) =>
          let childPath := if path = "" then k else path ++ "." ++ k
          elems.foldl
            (fun acc2 el =>
              let p := el.1.getD acc2.1
              let inner := gatherF fuel childPath p el.2.2
              (inner.1,
                acc2.2 ++
                  ({ pos := p, dec := el.2.1, header := some (childPath, true),
                     impl := false, kvs := getValuesE el.2.2 } :: inner.2)))
            acc)
      (lastPos, [])

/-- Render one key-value slot as its decor lines plus `key =<raw>`. -/
def renderKv (v : List String × String × String) : List String :=
  v.1 ++ [v.2.1 ++ " =" ++ v.2.2]

/-- Emit one block: decor, header, values.  The root block has no header;
an implicit table with no values emits nothing (`visit_table`'s
`!(implicit && values empty)` guard). -/
def blockLines (b : PBlock) : List String :=
  match b.header with
  | none => (b.kvs.map renderKv).flatten
  | some (p, true) =>
    b.dec ++ [("[[" ++ p ++ "]]")] ++ (b.kvs.map renderKv).flatten
  | some (p, false) =>
    if b.impl && b.kvs.isEmpty then []
    else b.dec ++ [("[" ++ p ++ "]")] ++ (b.kvs.map renderKv).flatten

/-- Position order on blocks (`sort_by_key(|(pos, ..)| pos)`, a stable
sort). -/
def posLe (a b : PBlock) : Prop := a.pos ≤ b.pos

instance : DecidableRel posLe := fun a b => Nat.decLe a.pos b.pos

/-- `doc.to_string()` as a list of lines: the root block (position 0),
every gathered block stable-sorted by position, then the trailing decor. -/
def printDoc (d : Doc) : List String :=
  let g := gatherF printFuel "" 0 d.root
  let blocks :=
    { pos := 0, dec := [], header := none, impl := true, kvs := getValuesE d.root }
      :: g.2
  ((List.insertionSort posLe blocks).map blockLines).flatten ++ d.trailing

/-! ### Parsing (`str::parse::<DocumentMut>`)

A line-level parser for the fragment of TOML these manifests use (bare
possibly-dotted headers, `[[..]]` array-of-tables headers, bare-key
single-line key-value pairs, comment/blank lines); anything else yields
`none`, as does any TOML error (duplicate tables or keys, malformed
headers). -/

/-- TOML bare keys: ASCII alphanumerics, `-`, `_`. -/
def bareKeyOk (s : String) : Bool :=
  s ≠ "" && s.data.all fun c => c.isAlphanum || c == '-' || c == '_'

/-- Insert an explicit table header at a dotted path, creating implicit
intermediate tables, making a previously implicit table explicit, and
rejecting duplicate explicit headers. -/
def insertTableAt (es : Entries) (path : List String) (dec : List String)
    (pos : Nat) : Option Entries :=
  match path with
  | [] => none
  | [k] =>
    match tblGet es k with
    | none => some (es ++ [([], k, .table false false (some pos) dec [])])
    | some (.table im dt _ _ sub) =>
      if im then some (replaceItem es k (.table false dt (some pos) dec sub))
      else none
    | some _ => none
  | k :: rest =>
    match tblGet es k with
    | none =>
      match insertTableAt [] rest dec pos with
      | some sub => some (es ++ [([], k, .table true false none [] sub)])
      | none => none
    | some (.table im dt p pdec sub) =>
      match insertTableAt sub rest dec pos with
      | some sub' => some (replaceItem es k (.table im dt p pdec sub'))
      | none => none
    | some (.aot elems) =>
      match elems.getLast? with
      | some (lp, ld, les) =>
        match insertTableAt les rest dec pos with
        | some les' =>
          some (replaceItem es k (.aot (elems.dropLast ++ [(lp, ld, les')])))
        | none => none
      | none => none
    | some _ => none

/-- Append a new array-of-tables element at a dotted path. -/
def insertAotAt (es : Entries) (path : List String) (dec : List String)
    (pos : Nat) : Option Entries :=
  match path with
  | [] => none
  | [k] =>
    match tblGet es k with
    | none => some (es ++ [([], k, .aot [(some pos, dec, [])])])
    | some (.aot elems) =>
      some (replaceItem es k (.aot (elems ++ [(some pos, dec, [])])))
    | some _ => none
  | k :: rest =>
    match tblGet es k with
    | none =>
      match insertAotAt [] rest dec pos with
      | some sub => some (es ++ [([], k, .table true false none [] sub)])
      | none => none
    | some (.table im dt p pdec sub) =>
      match insertAotAt sub rest dec pos with
      | some sub' => some (replaceItem es k (.table im dt p pdec sub'))
      | none => none
    | some (.aot elems) =>
      match elems.getLast? with
      | some (lp, ld, les) =>
        match insertAotAt les rest dec pos with
        | some les' =>
          some (replaceItem es k (.aot (elems.dropLast ++ [(lp, ld, les')])))
        | none => none
      | none => none
    | some _ => none

/-- Insert a key-value entry under the table at the given path (descending
into the last element of an array of tables), rejecting duplicate keys. -/
def insertKVAt (es : Entries) (path : List String) (ent : Entry) :
    Option Entries :=
  match path with
  | [] => if (tblGet es (eKey ent)).isSome then none else some (es ++ [ent])
  | k :: rest =>
    match tblGet es k with
    | some (.table im dt p pdec sub) =>
      match insertKVAt sub rest ent with
      | some sub' => some (replaceItem es k (.table im dt p pdec sub'))
      | none => none
    | some (.aot elems) =>
      match elems.getLast? with
      | some (lp, ld, les) =>
        match insertKVAt les rest ent with
        | some les' =>
          some (replaceItem es k (.aot (elems.dropLast ++ [(lp, ld, les')])))
        | none => none
      | none => none
    | _ => none

/-- Parser state: document built so far, path of the current header,
decor lines not yet attached, next document position. -/
structure PSt : Type where
  root : Entries
  curPath : List String
  pending : List String
  nextPos : Nat

/-- Consume one line. -/
def parseLine (st : PSt) (line : String) : Option PSt :=
  let t := strTrim line
  if strStarts t "[[" then
    match findRBrackets2 t.data with
    | some i =>
      let name := sliceStr t.data 2 i
      let path := splitDots name
      if path.all bareKeyOk then
        match insertAotAt st.root path st.pending st.nextPos with
        | some root' =>
          some { root := root', curPath := path, pending := [],
                 nextPos := st.nextPos + 1 }
        | none => none
      else none
    | none => none
  else if strStarts t "[" then
    match findRBracket t.data with
    | some i =>
      let name := sliceStr t.data 1 i
      let path := splitDots name
      if path.all bareKeyOk then
        match insertTableAt st.root path st.pending st.nextPos with
        | some root' =>
          some { root := root', curPath := path, pending := [],
                 nextPos := st.nextPos + 1 }
        | none => none
      else none
    | none => none
  else if t = "" || strStarts t "#" then
    some { st with pending := st.pending ++ [line] }
  else
    match line.data.findIdx? (· == '=') with
    | none => none
    | some i =>
      let key := strTrim (sliceStr line.data 0 i)
      let raw := sliceStr line.data (i + 1) line.data.length
      if bareKeyOk key then
        match insertKVAt st.root st.curPath (st.pending, key, .value raw) with
        | some root' => some { st with root := root', pending := [] }
        | none => none
      else none

/-- Parse a document from its lines. -/
def parseLines (lines : List String) : Option Doc :=
  match lines.foldlM parseLine { root := [], curPath := [], pending := [], nextPos := 1 } with
  | some st => some { root := st.root, trailing := st.pending }
  | none => none

/-! ### Top-Level Section Orderer (`reorder_sections`, src/main.rs:354-457) -/

def sectionOrder : List String :=
  ["package", "lib", "bin", "test", "bench", "example", "dependencies",
   "dev-dependencies", "build-dependencies", "target", "features"]

/-- Scanner state: the `HashMap<String, String>` of captured section texts,
the current section name and the current accumulation. -/
structure ScanSt : Type where
  map : List (String × List String)
  curName : String
  curLines : List String

/-- `HashMap::insert`: overwrite the value of an existing key. -/
def hmInsert (m : List (String × List String)) (k : String)
    (v : List String) : List (String × List String) :=
  if m.any (fun p => p.1 = k) then
    m.map fun p => if p.1 = k then (k, v) else p
  else m ++ [(k, v)]

/-- `HashMap::get`. -/
def hmGet : List (String × List String) → String → Option (List String)
  | [], _ => none
  | p :: rest, k => if p.1 = k then some p.2 else hmGet rest k

/-- One line of the manual section scan in `reorder_sections`. -/
def scanLine (st : ScanSt) (line : String) : ScanSt :=
  let t := strTrim line
  if strStarts t "[" && !strStarts t "[[" then
    let st1 :=
      if st.curName ≠ "" then { st with map := hmInsert st.map st.curName st.curLines }
      else st
    match findRBracket t.data with
    | some i =>
      { st1 with curName := sliceStr t.data 1 i, curLines := [line] }
    | none => st1
  else if strStarts t "[[" then
    let st1 :=
      if st.curName ≠ "" then
        { st with map := hmInsert st.map st.curName st.curLines, curName := "" }
      else st
    match findRBrackets2 t.data with
    | some i =>
      { st1 with curName := sliceStr t.data 2 i, curLines := [line] }
    | none => st1
  else { st with curLines := st.curLines ++ [line] }

/-- Port of `reorder_sections`: compare the root key sequence with the
expected sequence; when they differ, re-scan the serialized text into
per-name blocks, reassemble the blocks in expected order (inserting a blank
line between blocks where one is not already trailing), and re-parse.  A
re-parse failure is a hard error (`none`). -/
def reorderSections (d : Doc) : Option (Doc × Nat) :=
  let currentKeys := d.root.map eKey
  let expected :=
    sectionOrder.filter (fun s => currentKeys.contains s)
      ++ currentKeys.filter (fun k => ¬ sectionOrder.contains k)
  if currentKeys = expected then some (d, 0)
  else
    let lines := printDoc d
    let scan := lines.foldl scanLine { map := [], curName := "", curLines := [] }
    let sections :=
      if scan.curName ≠ "" then hmInsert scan.map scan.curName scan.curLines
      else scan.map
    let newContent :=
      expected.foldl
        (fun acc k =>
          match hmGet sections k with
          | some block =>
            (if acc ≠ [] && acc.getLast? ≠ some "" then acc ++ [""] else acc) ++ block
          | none => acc)
        []
    match parseLines newContent with
    | some d' => some (d', 1)
    | none => none

/-! ### Manifest Transform Pipeline (`format_manifest`, src/main.rs:211-266) -/

/-- The relevant command-line flags. -/
structure Args : Type where
  dryRun : Bool
  check : Bool

/-- Step 5's loop body for one `[target.*]` configuration: if it has a
`dependencies` table, collapse it (marking it explicit on change) and then
sort it. -/
def targetStepOne (cfg : Item) : Item × Nat :=
  match cfg with
  | .table im dt p dec es =>
    match tblGet es "dependencies" with
    | some (.table dim ddt dp ddec des) =>
      let c := collapseTableEntries des
      let dim1 := if c.2 > 0 then false else dim
      let n1 := if c.2 > 0 then c.2 else 0
      let s := sortTableInPlace c.1
      (.table im dt p dec
        (replaceItem es "dependencies" (.table dim1 ddt dp ddec s.1)), n1 + s.2)
    | _ => (cfg, 0)
  | _ => (cfg, 0)

/-- Step 5 of `format_manifest`: collapse and sort each target-scoped
dependency table. -/
def targetStep (d : Doc) : Doc × Nat :=
  match tblGet d.root "target" with
  | some (.table im dt p dec es) =>
    let r := mapCount targetStepOne es
    ({ d with root := replaceItem d.root "target" (.table im dt p dec r.1) }, r.2)
  | _ => (d, 0)

/-- Steps 1-5 of `format_manifest`, on the parsed document. -/
def pipeline (d : Doc) : Option (Doc × Nat) :=
  let c := collapseNestedTables d
  match reorderSections c.1 with
  | none => none
  | some r =>
    let p := formatPackageSection r.1
    let s1 := sortDependencies p.1 "dependencies"
    let s2 := sortDependencies s1.1 "dev-dependencies"
    let s3 := sortDependencies s2.1 "build-dependencies"
    let t := targetStep s3.1
    some (t.1, c.2 + r.2 + p.2 + s1.2 + s2.2 + s3.2 + t.2)

/-- Port of `format_manifest` for one manifest: parse, transform, and
decide the file's resulting content — the serialized document if the change
count is positive and neither `--dry-run` nor `--check` is set, the
original text otherwise.  Returns the change count and the file content
after the call. -/
def formatManifest (content : List String) (args : Args) :
    Option (Nat × List String) :=
  match parseLines content with
  | none => none
  | some d =>
    match pipeline d with
    | none => none
    | some r =>
      if r.2 > 0 then
        if args.dryRun || args.check then some (r.2, content)
        else some (r.2, printDoc r.1)
      else some (r.2, content)

/-! ## Concrete manifests used to evaluate the pipeline -/

/-- Apply mode: neither `--dry-run` nor `--check`. -/
def applyArgs : Args := { dryRun := false, check := false }

/-- A manifest whose `[dependencies]` mixes a plain value (`beta`) with a
non-collapsible nested table (`alpha`, which has a table child `sub`), in
an order the Key Sorter reorders. -/
def exIdem : List String :=
  ["[package]", "name = \"x\"", "",
   "[dependencies]", "beta = \"1\"", "",
   "[dependencies.alpha]", "git = \"g\"", "",
   "[dependencies.alpha.sub]", "x = \"1\""]

/-- A manifest needing section reordering that contains a dotted-header
section `[target.x.dependencies]`. -/
def exDropTarget : List String :=
  ["[dependencies]", "a = \"1\"", "",
   "[target.x.dependencies]", "b = \"1\"", "",
   "[package]", "name = \"p\""]

/-- A manifest needing section reordering with a dotted-header target
section, for checking the post-reorder root sequence. -/
def exOrder : List String :=
  ["[dev-dependencies]", "d = \"1\"", "",
   "[target.wasm.dependencies]", "c = \"2\"", "",
   "[package]", "name = \"q\""]

/-- A manifest needing section reordering with two contiguous `[[bin]]`
array-of-tables entries. -/
def exTwoBins : List String :=
  ["[dependencies]", "a = \"1\"", "",
   "[[bin]]", "name = \"one\"", "",
   "[[bin]]", "name = \"two\"", "",
   "[package]", "name = \"p\""]

/-- A table exercising every collapse case: a convertible nested table, a
nested table with a non-value child, a dotted table, and an empty nested
table. -/
def exConv : Entries :=
  [([], "foo", .table false false (some 5) []
      [([], "version", .value " \"1.0\""), ([], "features", .value " [\"a\"]")]),
   ([], "bar", .table false false none [] [([], "inner", .table false false none [] [])]),
   ([], "dotty", .table false true none [] [([], "v", .value " \"2\"")]),
   ([], "emptyt", .table true false none [] [])]

/-- A dependency table whose `alpha` entry carries a leading comment in its
key decor, with keys out of order. -/
def exCommented : Entries :=
  [([], "zebra", .value " \"1\""), (["# keep me"], "alpha", .value " \"1\"")]

/-- A manifest whose `[dependencies]` has an entry with a leading comment,
with keys out of order. -/
def exCommentedDoc : List String :=
  ["[package]", "name = \"x\"", "",
   "[dependencies]", "zebra = \"1\"", "# keep me", "alpha = \"1\""]

/-- A manifest whose `[package]` table is implicit (created only by the
`[package.metadata]` header) and contains a collapsible nested table. -/
def exImplicitPkg : List String :=
  ["[package.metadata]", "m = \"1\""]

/-- The root keys of a document. -/
def rootKeys (d : Doc) : List String := d.root.map eKey

/-- The number of elements of the array of tables at a root key. -/
def aotElemCount (d : Doc) (k : String) : Option Nat :=
  match tblGet d.root k with
  | some (.aot elems) => some elems.length
  | _ => none

/-- The value lines' data of each element of the array of tables at a root
key. -/
def aotValues (d : Doc) (k : String) : List (List (List String × String × String)) :=
  match tblGet d.root k with
  | some (.aot elems) => elems.map fun e => getValuesE e.2.2
  | _ => []

/-- The implicit flag of the root `package` table. -/
def pkgImplicitFlag (d : Doc) : Option Bool :=
  match tblGet d.root "package" with
  | some (.table im _ _ _ _) => some im
  | _ => none

/-- A dependencies table with one collapsible nested entry. -/
def exTargetDeps : Entries :=
  [([], "foo", .table false false (some 2) []
      [([], "version", .value " \"1\"")])]

/-- A document with a collapsible `[dependencies.foo]` entry and a
target-scoped dependencies table with a collapsible `bar` entry. -/
def exTargetDoc : Doc :=
  { root :=
      [([], "dependencies", .table false false (some 1) [] exTargetDeps),
       ([], "target", .table true false none []
          [([], "cfg1", .table true false none []
              [([], "dependencies", .table false false (some 3) []
                  [([], "bar", .table false false (some 4) []
                      [([], "version", .value " \"2\"")])])])])],
    trailing := [] }

/-- The expected top-level section sequence in the specification's words:
the canonical order filtered to present sections, then the other present
sections in original relative order. -/
def specExpectedSections (ks : List String) : List String :=
  sectionOrder.filter (fun s => ks.contains s)
    ++ ks.filter (fun k => ¬ sectionOrder.contains k)

/-! ## Supporting lemmas: the collapse characterization -/

theorem tblGet_cons (e : Entry) (t : Entries) (k : String) :
    tblGet (e :: t) k = if eKey e = k then some (eItem e) else tblGet t k := rfl

theorem tblGet_isSome_iff (t : Entries) (k : String) :
    (tblGet t k).isSome ↔ k ∈ t.map eKey := by
  induction t with
  | nil => simp [tblGet]
  | cons e rest ih =>
    by_cases h : eKey e = k
    · simp [tblGet_cons, h]
    · simp only [tblGet_cons, if_neg h, List.map_cons, List.mem_cons, ih]
      constructor
      · exact Or.inr
      · rintro (he | hm)
        · exact absurd he.symm h
        · exact hm

theorem replaceItem_cons_ne {e : Entry} {k : String} (t : Entries) (v : Item)
    (h : eKey e ≠ k) : replaceItem (e :: t) k v = e :: replaceItem t k v := by
  simp [replaceItem, h]

theorem tblInsert_cons_ne {e : Entry} {k : String} (t : Entries) (v : Item)
    (h : eKey e ≠ k) : tblInsert (e :: t) k v = e :: tblInsert t k v := by
  unfold tblInsert
  rw [tblGet_cons, if_neg h]
  by_cases hp : (tblGet t k).isSome
  · simp [hp, h]
  · simp [hp]

theorem collapseApply_cons (x : Entry) (t : Entries) (n : Nat)
    (r : String × List (String × String)) (h : r.1 ≠ eKey x) :
    collapseApply (x :: t, n) r
      = ((x :: (collapseApply (t, n) r).1), (collapseApply (t, n) r).2) := by
  have hxne : ¬ (eKey x = r.1) := fun he => h he.symm
  unfold collapseApply
  rw [tblGet_cons, if_neg hxne]
  by_cases hp : (tblGet t r.1).isSome = true
  · rw [if_pos hp, if_pos hp, replaceItem_cons_ne _ _ hxne]
  · rw [if_neg hp, if_neg hp, tblInsert_cons_ne _ _ hxne]

theorem foldl_collapseApply_cons
    (reps : List (String × List (String × String))) (x : Entry) (t : Entries)
    (n : Nat) (h : ∀ r ∈ reps, r.1 ≠ eKey x) :
    reps.foldl collapseApply (x :: t, n)
      = ((x :: (reps.foldl collapseApply (t, n)).1),
         (reps.foldl collapseApply (t, n)).2) := by
  induction reps generalizing t n with
  | nil => rfl
  | cons r rs ih =>
    rw [List.foldl_cons, List.foldl_cons,
      collapseApply_cons x t n r (h r (by simp))]
    exact ih _ _ (fun r' hr' => h r' (by simp [hr']))

theorem collapseRepFor_eq (t : Entries) (k : String) :
    collapseRepFor t k
      = (tblGet t k).bind fun it => (convInfo it).map fun kvs => (k, kvs) := by
  unfold collapseRepFor convInfo
  cases tblGet t k with
  | none => rfl
  | some it =>
    cases it with
    | value raw => rfl
    | aot elems => rfl
    | table im dotted p dec inner =>
      cases dotted with
      | true => rfl
      | false =>
        cases hcv : childValues inner with
        | none => simp [hcv]
        | some kvs => simp [hcv]

theorem collapseReps_eq (t : Entries) (h : (t.map eKey).Nodup) :
    collapseReps t = repsOf t := by
  induction t with
  | nil => rfl
  | cons e rest ih =>
    rw [List.map_cons, List.nodup_cons] at h
    have hhead : collapseRepFor (e :: rest) (eKey e)
        = (convInfo (eItem e)).map fun kvs => (eKey e, kvs) := by
      rw [collapseRepFor_eq, tblGet_cons, if_pos rfl]
      rfl
    have htail : (rest.map eKey).filterMap (collapseRepFor (e :: rest))
        = (rest.map eKey).filterMap (collapseRepFor rest) := by
      apply List.filterMap_congr
      intro k hk
      have hne : eKey e ≠ k := fun he => h.1 (he ▸ hk)
      rw [collapseRepFor_eq, collapseRepFor_eq, tblGet_cons, if_neg hne]
    show ((e :: rest).map eKey).filterMap (collapseRepFor (e :: rest)) = _
    rw [List.map_cons, List.filterMap_cons, hhead, htail]
    have ihr : (rest.map eKey).filterMap (collapseRepFor rest) = repsOf rest :=
      ih h.2
    cases hc : convInfo (eItem e) with
    | none => simp [repsOf, hc, ihr]
    | some kvs => simp [repsOf, hc, ihr]

theorem repsOf_keys {t : Entries} {r : String × List (String × String)}
    (hr : r ∈ repsOf t) : r.1 ∈ t.map eKey := by
  induction t with
  | nil => cases hr
  | cons e rest ih =>
    rw [repsOf] at hr
    cases hc : convInfo (eItem e) with
    | none =>
      rw [hc] at hr
      exact List.mem_cons_of_mem _ (ih hr)
    | some kvs =>
      rw [hc] at hr
      rcases List.mem_cons.mp hr with he | hm
      · rw [he]
        exact List.mem_cons_self _ _
      · exact List.mem_cons_of_mem _ (ih hm)

theorem mem_repsOf {t : Entries} {pre : List String} {k : String} {it : Item}
    {kvs : List (String × String)} (hm : (pre, k, it) ∈ t)
    (hc : convInfo it = some kvs) : (k, kvs) ∈ repsOf t := by
  induction t with
  | nil => cases hm
  | cons e rest ih =>
    rcases List.mem_cons.mp hm with he | hm'
    · rw [repsOf, ← he]
      show (k, kvs) ∈ match convInfo it with
        | some kvs' => (k, kvs') :: repsOf rest
        | none => repsOf rest
      rw [hc]
      exact List.mem_cons_self _ _
    · have hr := ih hm'
      rw [repsOf]
      cases hcc : convInfo (eItem e)
      · exact hr
      · exact List.mem_cons_of_mem _ hr

theorem collapse_fold_eq (t : Entries) (h : (t.map eKey).Nodup) (n : Nat) :
    (repsOf t).foldl collapseApply (t, n)
      = (t.map collapseStep, n + (repsOf t).length) := by
  induction t generalizing n with
  | nil => simp [repsOf]
  | cons e rest ih =>
    rw [List.map_cons, List.nodup_cons] at h
    have hsub : ∀ r ∈ repsOf rest, r.1 ≠ eKey e := by
      intro r hr he
      exact h.1 (he ▸ repsOf_keys hr)
    cases hc : convInfo (eItem e) with
    | some kvs =>
      have hrep : repsOf (e :: rest) = (eKey e, kvs) :: repsOf rest := by
        rw [repsOf, hc]
      have hstep : collapseStep e = (e.1, e.2.1, Item.value (inlineRaw kvs)) := by
        rw [collapseStep, hc]
      rw [hrep, List.foldl_cons]
      have happ : collapseApply (e :: rest, n) (eKey e, kvs)
          = ((e.1, e.2.1, Item.value (inlineRaw kvs)) :: rest, n + 1) := by
        unfold collapseApply
        rw [tblGet_cons, if_pos rfl]
        simp [replaceItem]
      rw [happ,
        foldl_collapseApply_cons _ _ _ _
          (by intro r hr he; exact hsub r hr he),
        ih h.2 (n + 1), List.map_cons, hstep]
      simp [Nat.add_assoc, Nat.add_comm 1]
    | none =>
      have hrep : repsOf (e :: rest) = repsOf rest := by rw [repsOf, hc]
      have hstep : collapseStep e = e := by rw [collapseStep, hc]
      rw [hrep, foldl_collapseApply_cons _ _ _ _ hsub, ih h.2 n,
        List.map_cons, hstep]

/-- The collapse characterization: on a table with distinct keys,
`collapse_table_entries` maps `collapseStep` over the entries and counts
the convertible ones. -/
theorem collapseTableEntries_eq (t : Entries) (h : (t.map eKey).Nodup) :
    collapseTableEntries t = (t.map collapseStep, (repsOf t).length) := by
  unfold collapseTableEntries
  rw [collapseReps_eq t h, collapse_fold_eq t h 0]
  simp

/-! ## Supporting lemmas: draining and sorted reinsertion -/

theorem removeFirst_cons_self (e : Entry) (t : Entries) :
    removeFirst (e :: t) (eKey e) = (some (eItem e), t) := by
  simp [removeFirst]

theorem alInsert_of_absent {m : List (String × Item)} {k : String} (it : Item)
    (h : ∀ q ∈ m, q.1 ≠ k) : alInsert m k it = m ++ [(k, it)] := by
  unfold alInsert
  have hany : m.any (fun p => p.1 = k) = false := by
    rw [List.any_eq_false]
    intro q hq
    simpa using h q hq
  rw [hany]
  simp

theorem drain_go (t : Entries) (m : List (String × Item))
    (h : (t.map eKey).Nodup) (hdis : ∀ k ∈ t.map eKey, ∀ q ∈ m, q.1 ≠ k) :
    (t.map eKey).foldl drainStep (t, m)
      = ([], m ++ t.map fun e => (eKey e, eItem e)) := by
  induction t generalizing m with
  | nil => simp
  | cons e rest ih =>
    rw [List.map_cons, List.nodup_cons] at h
    rw [List.map_cons, List.foldl_cons]
    have hstep : drainStep (e :: rest, m) (eKey e)
        = (rest, m ++ [(eKey e, eItem e)]) := by
      unfold drainStep
      rw [removeFirst_cons_self]
      show (rest, alInsert m (eKey e) (eItem e)) = _
      rw [alInsert_of_absent _ (fun q hq => hdis (eKey e) (by simp) q hq)]
    have hdis' : ∀ k ∈ rest.map eKey, ∀ q ∈ m ++ [(eKey e, eItem e)], q.1 ≠ k := by
      intro k hk q hq
      rcases List.mem_append.mp hq with hq' | hq'
      · exact hdis k (List.mem_cons_of_mem _ hk) q hq'
      · have hqe : q = (eKey e, eItem e) := by simpa using hq'
        rw [hqe]
        intro he
        rw [← he] at hk
        exact h.1 hk
    rw [hstep, ih (m ++ [(eKey e, eItem e)]) h.2 hdis']
    simp

theorem alRemove_found {m : List (String × Item)} {k : String}
    (hk : k ∈ m.map Prod.fst) :
    ∃ v m', alRemove m k = (some v, m')
      ∧ m'.map Prod.fst = (m.map Prod.fst).erase k := by
  induction m with
  | nil => simp at hk
  | cons q rest ih =>
    by_cases hq : q.1 = k
    · refine ⟨q.2, rest, ?_, ?_⟩
      · simp [alRemove, hq]
      · rw [List.map_cons, hq, List.erase_cons_head]
    · have hk' : k ∈ rest.map Prod.fst := by
        rcases List.mem_cons.mp hk with he | hm
        · exact absurd he.symm hq
        · exact hm
      rcases ih hk' with ⟨v, m', hrm, hmap⟩
      refine ⟨v, q :: m', ?_, ?_⟩
      · simp [alRemove, hq, hrm]
      · rw [List.map_cons, List.map_cons, List.erase_cons_tail, hmap]
        simp [hq]

theorem tblInsert_of_absent {t : Entries} {k : String} (v : Item)
    (h : ¬ (tblGet t k).isSome = true) : tblInsert t k v = t ++ [([], k, v)] := by
  unfold tblInsert
  rw [if_neg h]

theorem reinsert_go (ks : List String) (t0 : Entries)
    (m : List (String × Item)) (hks : ks.Nodup)
    (hm : (m.map Prod.fst).Nodup) (hfound : ∀ k ∈ ks, k ∈ m.map Prod.fst)
    (habs : ∀ k ∈ ks, k ∉ t0.map eKey) :
    ((ks.foldl reinsertStep (t0, m)).1).map eKey = t0.map eKey ++ ks := by
  induction ks generalizing t0 m with
  | nil => simp
  | cons k ks' ih =>
    rw [List.nodup_cons] at hks
    rcases alRemove_found (hfound k (by simp)) with ⟨v, m', hrm, hmap⟩
    have habsk : ¬ (tblGet t0 k).isSome = true := by
      rw [tblGet_isSome_iff]
      exact habs k (by simp)
    rw [List.foldl_cons]
    have hstep : reinsertStep (t0, m) k = (t0 ++ [([], k, v)], m') := by
      unfold reinsertStep
      rw [hrm]
      show (tblInsert t0 k v, m') = _
      rw [tblInsert_of_absent v habsk]
    have hm' : (m'.map Prod.fst).Nodup := by
      rw [hmap]
      exact hm.erase k
    have hfound' : ∀ k' ∈ ks', k' ∈ m'.map Prod.fst := by
      intro k' hk'
      rw [hmap]
      refine (List.mem_erase_of_ne ?_).mpr (hfound k' (List.mem_cons_of_mem _ hk'))
      intro he
      rw [he] at hk'
      exact hks.1 hk'
    have habs' : ∀ k' ∈ ks', k' ∉ (t0 ++ [([], k, v)]).map eKey := by
      intro k' hk'
      simp only [List.map_append, List.mem_append]
      rintro (hin | hin)
      · exact habs k' (List.mem_cons_of_mem _ hk') hin
      · have hkk : k' = k := by simpa [eKey] using hin
        rw [hkk] at hk'
        exact hks.1 hk'
    rw [hstep, ih (t0 ++ [([], k, v)]) m' hks.2 hm' hfound' habs']
    simp [eKey]

/-- The guard of `sort_table_in_place` holds exactly on sorted key
sequences. -/
theorem sort_guard_iff (ks : List String) :
    ks = List.insertionSort strLe ks ↔ List.Sorted strLe ks := by
  constructor
  · intro h
    rw [h]
    exact List.sorted_insertionSort strLe ks
  · intro h
    exact (h.insertionSort_eq).symm

/-- On a table with distinct keys, the reordering branch of
`sort_table_in_place` produces exactly the stable-sorted key sequence. -/
theorem sortTableInPlace_keys (t : Entries) (h : (t.map eKey).Nodup)
    (hne : t.map eKey ≠ List.insertionSort strLe (t.map eKey)) :
    (sortTableInPlace t).1.map eKey = List.insertionSort strLe (t.map eKey) := by
  unfold sortTableInPlace
  rw [if_neg hne]
  have hdr : drainByKeys t (t.map eKey)
      = ([], t.map fun e => (eKey e, eItem e)) := by
    unfold drainByKeys
    exact drain_go t [] h (by simp)
  rw [hdr]
  unfold reinsertByKeys
  have hperm : List.Perm (List.insertionSort strLe (t.map eKey)) (t.map eKey) :=
    List.perm_insertionSort strLe (t.map eKey)
  have hmkeys : (t.map fun e => (eKey e, eItem e)).map Prod.fst = t.map eKey := by
    simp
  rw [reinsert_go _ _ _ (hperm.nodup_iff.mpr h) (by rw [hmkeys]; exact h)
    (fun k hk => by rw [hmkeys]; exact hperm.mem_iff.mp hk)
    (fun k _ => by simp)]
  simp

/-! ## Supporting lemmas: the explicit-marking chain -/

theorem tblGet_replaceItem_self {t : Entries} {k : String} {it0 : Item}
    (h : tblGet t k = some it0) (v : Item) :
    tblGet (replaceItem t k v) k = some v := by
  induction t with
  | nil => cases h
  | cons e rest ih =>
    by_cases he : eKey e = k
    · rw [replaceItem, if_pos he, tblGet_cons]
      have h2 : eKey (e.1, e.2.1, v) = k := he
      rw [if_pos h2]
      rfl
    · rw [replaceItem, if_neg he, tblGet_cons, if_neg he]
      rw [tblGet_cons, if_neg he] at h
      exact ih h

theorem tblGet_replaceItem_ne {t : Entries} {k k' : String} (v : Item)
    (h : k' ≠ k) : tblGet (replaceItem t k v) k' = tblGet t k' := by
  induction t with
  | nil => rfl
  | cons e rest ih =>
    by_cases he : eKey e = k
    · rw [replaceItem, if_pos he]
      show (if eKey (e.1, e.2.1, v) = k' then some v else tblGet rest k') = _
      have : eKey (e.1, e.2.1, v) = eKey e := rfl
      rw [this, tblGet_cons]
      rw [he]
      rw [if_neg (fun hh => h hh.symm), if_neg (fun hh => h hh.symm)]
    · rw [replaceItem, if_neg he, tblGet_cons, tblGet_cons, ih]

theorem collapsePkgStep_get_ne (d : Doc) (k : String) (h : k ≠ "package") :
    tblGet (collapsePkgStep d).1.root k = tblGet d.root k := by
  unfold collapsePkgStep
  cases hp : tblGet d.root "package" with
  | none => rfl
  | some it =>
    cases it with
    | value raw => rfl
    | aot elems => rfl
    | table im dt p dec es => exact tblGet_replaceItem_ne _ h

theorem collapseDepsSection_get_ne (d : Doc) (s k : String) (h : k ≠ s) :
    tblGet (collapseDepsSection d s).1.root k = tblGet d.root k := by
  unfold collapseDepsSection
  cases hp : tblGet d.root s with
  | none => rfl
  | some it =>
    cases it with
    | value raw => rfl
    | aot elems => rfl
    | table im dt p dec es =>
      dsimp only
      by_cases hc : (collapseTableEntries es).2 > 0
      · rw [if_pos hc]
        exact tblGet_replaceItem_ne _ h
      · rw [if_neg hc]
        exact tblGet_replaceItem_ne _ h

theorem collapseDepsSection_get_self {d : Doc} {s : String} {im dt : Bool}
    {p : Option Nat} {dec : List String} {es : Entries}
    (h : tblGet d.root s = some (Item.table im dt p dec es))
    (hc : 0 < (collapseTableEntries es).2) :
    tblGet (collapseDepsSection d s).1.root s
      = some (Item.table false dt p dec (collapseTableEntries es).1) := by
  unfold collapseDepsSection
  rw [h]
  dsimp only
  rw [if_pos hc]
  exact tblGet_replaceItem_self h _

theorem collapseDepsFold_doc (d : Doc) :
    (collapseDepsFold d).1
      = (collapseDepsSection
          (collapseDepsSection
            (collapseDepsSection d "dependencies").1 "dev-dependencies").1
          "build-dependencies").1 := rfl

theorem collapseDepsFold_get_ne (d : Doc) (k : String) (h : k ∉ depSections) :
    tblGet (collapseDepsFold d).1.root k = tblGet d.root k := by
  have h1 : k ≠ "dependencies" := fun he => h (by rw [he]; simp [depSections])
  have h2 : k ≠ "dev-dependencies" := fun he => h (by rw [he]; simp [depSections])
  have h3 : k ≠ "build-dependencies" := fun he => h (by rw [he]; simp [depSections])
  rw [collapseDepsFold_doc, collapseDepsSection_get_ne _ _ _ h3,
    collapseDepsSection_get_ne _ _ _ h2, collapseDepsSection_get_ne _ _ _ h1]

theorem mapCount_fst (f : Item → Item × Nat) (es : Entries) :
    (mapCount f es).1 = es.map fun e => (e.1, e.2.1, (f (eItem e)).1) := by
  induction es with
  | nil => rfl
  | cons e rest ih =>
    obtain ⟨pre, k, it⟩ := e
    show (pre, k, (f it).1) :: (mapCount f rest).1 = _
    rw [ih]
    rfl

theorem collapseTargetStep_get_ne (d : Doc) (k : String) (h : k ≠ "target") :
    tblGet (collapseTargetStep d).1.root k = tblGet d.root k := by
  unfold collapseTargetStep
  cases hp : tblGet d.root "target" with
  | none => rfl
  | some it =>
    cases it with
    | value raw => rfl
    | aot elems => rfl
    | table im dt p dec es =>
      dsimp only
      exact tblGet_replaceItem_ne _ h

theorem collapseTargetStep_get_self {d : Doc} {im dt : Bool} {p : Option Nat}
    {dec : List String} {es : Entries}
    (h : tblGet d.root "target" = some (Item.table im dt p dec es)) :
    tblGet (collapseTargetStep d).1.root "target"
      = some (Item.table im dt p dec (mapCount collapseTargetOne es).1) := by
  unfold collapseTargetStep
  rw [h]
  dsimp only
  exact tblGet_replaceItem_self h _

theorem collapseTargetOne_eq {cim cdt : Bool} {cp : Option Nat}
    {cdec : List String} {ces : Entries} {dim ddt : Bool} {dp : Option Nat}
    {ddec : List String} {des : Entries}
    (h : tblGet ces "dependencies" = some (Item.table dim ddt dp ddec des))
    (hc : 0 < (collapseTableEntries des).2) :
    collapseTargetOne (Item.table cim cdt cp cdec ces)
      = (Item.table cim cdt cp cdec
          (replaceItem ces "dependencies"
            (Item.table false ddt dp ddec (collapseTableEntries des).1)),
         (collapseTableEntries des).2) := by
  unfold collapseTargetOne
  dsimp only
  rw [h]
  dsimp only
  rw [if_pos hc]

/-! ## Claims -/

/-- C1 (code bug).  The claim — running the full transform pipeline a
second time on the first run's output produces a change count of zero —
fails on `exIdem`: the first run sorts `[dependencies]` to `alpha, beta`
in the tree, but serialization emits the value `beta` inside the
`[dependencies]` block and `alpha` as the later `[dependencies.alpha]`
block (values print before nested-table children, and the blocks keep
their recorded positions), so re-parsing the output yields `beta, alpha`
again and the second run also reports 1 change — as does every subsequent
run, with the file rewritten to identical bytes each time. -/
theorem claim1_pipeline_not_idempotent :
    formatManifest exIdem applyArgs = some (1, exIdem)
    ∧ ((formatManifest exIdem applyArgs).bind fun r =>
        (formatManifest r.2 applyArgs).map Prod.fst) = some 1
    ∧ (1 : Nat) ≠ 0 := by
  decide

/-- C2 (code bug).  The claim — reordering steps preserve the key set of
the affected table — fails for the top-level reorder on `exDropTarget`:
the root table's keys are `dependencies, target, package` before, but the
scan keys the `[target.x.dependencies]` block under its full dotted name,
which matches no expected root key, so the reassembled document has lost
the root key `target` (and the whole section's content). -/
theorem claim2_reorder_drops_root_key :
    (parseLines exDropTarget).map rootKeys
      = some ["dependencies", "target", "package"]
    ∧ ((parseLines exDropTarget).bind reorderSections).map
        (fun r => (rootKeys r.1, r.2))
      = some (["package", "dependencies"], 1) := by
  decide

/-- C4 (code bug).  The claim — after the Top-Level Section Orderer runs,
the root section sequence equals the canonical sequence filtered to present
sections followed by the remaining sections — fails on `exOrder`: `target`
is present before the run, so the expected sequence is
`package, dev-dependencies, target`, but the reassembled document's root
sequence is `package, dev-dependencies` (the dotted-header target block is
dropped). -/
theorem claim4_section_order_not_canonical :
    (parseLines exOrder).map (fun d => specExpectedSections (rootKeys d))
      = some ["package", "dev-dependencies", "target"]
    ∧ ((parseLines exOrder).bind reorderSections).map (fun r => rootKeys r.1)
      = some ["package", "dev-dependencies"]
    ∧ (["package", "dev-dependencies"] : List String)
        ≠ ["package", "dev-dependencies", "target"] := by
  decide

/-- C7 (code bug).  The claim — contiguous array-of-tables entries sharing
a key are captured together so the reassembled output retains every one of
them — fails on `exTwoBins`: each `[[bin]]` header starts a fresh capture
buffer for the key `bin`, and the `HashMap` insert overwrites the previous
capture, so after reordering only the last `[[bin]]` entry (the one with
`name = "two"`) survives of the two parsed. -/
theorem claim7_aot_block_lost :
    (parseLines exTwoBins).bind (fun d => aotElemCount d "bin") = some 2
    ∧ ((parseLines exTwoBins).bind reorderSections).bind
        (fun r => aotElemCount r.1 "bin") = some 1
    ∧ ((parseLines exTwoBins).bind reorderSections).map
        (fun r => aotValues r.1 "bin")
      = some [[([], "name", " \"two\"")]] := by
  decide

/-- C8 (code bug).  The claim — the Key Sorter's reinsertion transplants
each entry's leading comments — fails because in `toml_edit` leading
comments live in the `Key`'s decor, which `Table::remove` discards (it
returns only the `Item`) and `Table::insert` replaces with default decor:
sorting `exCommented` loses the `# keep me` comment attached to `alpha`,
both at the table level and in the serialized output of the full
pipeline. -/
theorem claim8_sorter_drops_comment :
    exCommented.map ePre = [[], ["# keep me"]]
    ∧ (sortTableInPlace exCommented).1.map ePre = [[], []]
    ∧ (sortTableInPlace exCommented).1.map eKey = ["alpha", "zebra"]
    ∧ (sortTableInPlace exCommented).2 = 1
    ∧ formatManifest exCommentedDoc applyArgs
        = some (1, ["[package]", "name = \"x\"", "",
                    "[dependencies]", "alpha = \"1\"", "zebra = \"1\""])
    ∧ "# keep me" ∈ exCommentedDoc
    ∧ "# keep me" ∉ ["[package]", "name = \"x\"", "",
                     "[dependencies]", "alpha = \"1\"", "zebra = \"1\""] := by
  decide

/-- C3 (confirmed).  For every table with distinct keys passed to the
Table Collapser: a non-dotted nested child table whose every immediate
child is a plain value is replaced in place (key and key decor kept) by the
inline table of exactly the same key-value pairs in their original order; a
nested child table with any non-value child is left entirely unmodified;
and a dotted-key child table is never collapsed. -/
theorem claim3_collapse_safety (t : Entries) (h : (t.map eKey).Nodup)
    (pre : List String) (k : String) (it : Item) (hm : (pre, k, it) ∈ t) :
    (∀ im p dec inner kvs, it = Item.table im false p dec inner →
        childValues inner = some kvs →
        (pre, k, Item.value (inlineRaw kvs)) ∈ (collapseTableEntries t).1)
    ∧ (∀ im p dec inner, it = Item.table im false p dec inner →
        childValues inner = none →
        (pre, k, it) ∈ (collapseTableEntries t).1)
    ∧ (∀ im dotted p dec inner, it = Item.table im dotted p dec inner →
        dotted = true →
        (pre, k, it) ∈ (collapseTableEntries t).1) := by
  rw [collapseTableEntries_eq t h]
  refine ⟨?_, ?_, ?_⟩
  · intro im p dec inner kvs heq hcv
    subst heq
    have hs : collapseStep (pre, k, Item.table im false p dec inner)
        = (pre, k, Item.value (inlineRaw kvs)) := by
      simp [collapseStep, convInfo, eItem, hcv]
    exact hs ▸ List.mem_map_of_mem collapseStep hm
  · intro im p dec inner heq hcv
    subst heq
    have hs : collapseStep (pre, k, Item.table im false p dec inner)
        = (pre, k, Item.table im false p dec inner) := by
      simp [collapseStep, convInfo, eItem, hcv]
    exact hs ▸ List.mem_map_of_mem collapseStep hm
  · intro im dotted p dec inner heq hdot
    subst heq
    subst hdot
    have hs : collapseStep (pre, k, Item.table im true p dec inner)
        = (pre, k, Item.table im true p dec inner) := by
      simp [collapseStep, convInfo, eItem]
    exact hs ▸ List.mem_map_of_mem collapseStep hm

/-- Witness for C3 on the concrete table `exConv`: its convertible entry
`foo` is collapsed to the inline pairs in order, its entry `bar` (one table
child) is untouched, and its dotted entry `dotty` is untouched. -/
theorem claim3_collapse_safety_witness :
    (exConv.map eKey).Nodup
    ∧ ([], "foo", Item.table false false (some 5) []
        [([], "version", Item.value " \"1.0\""),
         ([], "features", Item.value " [\"a\"]")]) ∈ exConv
    ∧ ([], "foo",
        Item.value (inlineRaw [("version", " \"1.0\""), ("features", " [\"a\"]")]))
        ∈ (collapseTableEntries exConv).1 := by
  refine ⟨by decide, by unfold exConv; exact .head _, ?_⟩
  exact (claim3_collapse_safety exConv (by decide) _ _ _
      (by unfold exConv; exact .head _)).1
    false (some 5) []
    [([], "version", Item.value " \"1.0\""), ([], "features", Item.value " [\"a\"]")]
    [("version", " \"1.0\""), ("features", " [\"a\"]")] rfl (by decide)

/-- C10 (confirmed).  For every table with distinct keys passed to the
Table Collapser, a non-dotted nested child table with zero entries is
treated as convertible: it is replaced by an empty inline table and the
change count is positive, rather than the entry being left untouched. -/
theorem claim10_empty_table_collapsed (t : Entries) (h : (t.map eKey).Nodup)
    (pre : List String) (k : String) (im : Bool) (p : Option Nat)
    (dec : List String) (hm : (pre, k, Item.table im false p dec []) ∈ t) :
    (pre, k, Item.value (inlineRaw [])) ∈ (collapseTableEntries t).1
    ∧ 0 < (collapseTableEntries t).2 := by
  rw [collapseTableEntries_eq t h]
  constructor
  · have hs : collapseStep (pre, k, Item.table im false p dec [])
        = (pre, k, Item.value (inlineRaw [])) := by
      simp [collapseStep, convInfo, eItem, childValues]
    exact hs ▸ List.mem_map_of_mem collapseStep hm
  · have hr : (k, ([] : List (String × String))) ∈ repsOf t :=
      mem_repsOf hm (by simp [convInfo, childValues])
    simpa using List.length_pos.mpr (List.ne_nil_of_mem hr)

/-- Witness for C10 on `exConv`: its empty nested table `emptyt` becomes
the empty inline table and the count is positive. -/
theorem claim10_empty_table_collapsed_witness :
    (exConv.map eKey).Nodup
    ∧ ([], "emptyt", Item.table true false none [] []) ∈ exConv
    ∧ ([], "emptyt", Item.value (inlineRaw [])) ∈ (collapseTableEntries exConv).1
    ∧ 0 < (collapseTableEntries exConv).2 := by
  have hmem : (([], "emptyt", Item.table true false none [] []) : Entry) ∈ exConv := by
    unfold exConv
    exact .tail _ (.tail _ (.tail _ (.head _)))
  have h := claim10_empty_table_collapsed exConv (by decide) [] "emptyt" true none [] hmem
  exact ⟨by decide, hmem, h.1, h.2⟩

/-- C5 (confirmed).  For every pipeline invocation on one manifest: when
the accumulated change count is zero the file content is left byte-for-byte
unchanged; when the count is nonzero under `--dry-run` or `--check` the
file is still unchanged; and only when the count is nonzero with neither
flag set is the file overwritten with the serialized transformed
document. -/
theorem claim5_write_frame (content : List String) (args : Args) (n : Nat)
    (out : List String) (h : formatManifest content args = some (n, out)) :
    (n = 0 → out = content)
    ∧ (args.dryRun = true ∨ args.check = true → out = content)
    ∧ (0 < n → args.dryRun = false → args.check = false →
        ∃ d r, parseLines content = some d ∧ pipeline d = some r
          ∧ n = r.2 ∧ out = printDoc r.1) := by
  unfold formatManifest at h
  cases hp : parseLines content with
  | none => rw [hp] at h; cases h
  | some d =>
    rw [hp] at h
    dsimp only at h
    cases hq : pipeline d with
    | none => rw [hq] at h; cases h
    | some r =>
      rw [hq] at h
      dsimp only at h
      by_cases h2 : r.2 > 0
      · rw [if_pos h2] at h
        by_cases h3 : (args.dryRun || args.check) = true
        · rw [if_pos h3] at h
          obtain ⟨hn, hout⟩ : n = r.2 ∧ out = content := by
            cases h; exact ⟨rfl, rfl⟩
          refine ⟨fun _ => hout, fun _ => hout, fun _ hd hc => ?_⟩
          rw [hd, hc] at h3
          cases h3
        · rw [if_neg h3] at h
          obtain ⟨hn, hout⟩ : n = r.2 ∧ out = printDoc r.1 := by
            cases h; exact ⟨rfl, rfl⟩
          refine ⟨fun hz => ?_, fun hdc => ?_, fun _ _ _ => ⟨d, r, rfl, hq, hn, hout⟩⟩
          · rw [hz] at hn
            exact absurd hn.symm (Nat.ne_of_gt h2)
          · rcases hdc with hd | hc
            · exact absurd (by rw [hd]; simp) h3
            · exact absurd (by rw [hc]; simp) h3
      · rw [if_neg h2] at h
        obtain ⟨hn, hout⟩ : n = r.2 ∧ out = content := by
          cases h; exact ⟨rfl, rfl⟩
        refine ⟨fun _ => hout, fun _ => hout, fun hpos _ _ => ?_⟩
        rw [hn] at hpos
        exact absurd hpos h2

/-- Witness for C5 on `exCommentedDoc`: in check mode the content is
returned unchanged although one change is counted; in apply mode the file
content becomes the serialized transformed document. -/
theorem claim5_write_frame_witness :
    formatManifest exCommentedDoc { dryRun := false, check := true }
      = some (1, exCommentedDoc)
    ∧ formatManifest exCommentedDoc applyArgs
        = some (1, ["[package]", "name = \"x\"", "",
                    "[dependencies]", "alpha = \"1\"", "zebra = \"1\""])
    ∧ (0 < 1 → applyArgs.dryRun = false → applyArgs.check = false →
        ∃ d r, parseLines exCommentedDoc = some d ∧ pipeline d = some r
          ∧ 1 = r.2
          ∧ ["[package]", "name = \"x\"", "",
             "[dependencies]", "alpha = \"1\"", "zebra = \"1\""] = printDoc r.1) :=
  ⟨by decide, by decide,
   (claim5_write_frame exCommentedDoc applyArgs 1 _ (by decide)).2.2⟩

/-- C6 (confirmed).  For every table with distinct keys passed to the Key
Sorter: after it runs the key sequence is byte-lexicographically
non-decreasing; it returns 0 when the keys were already in sorted order;
and it returns exactly 1 whenever any reordering occurred. -/
theorem claim6_sort_correctness (t : Entries) (h : (t.map eKey).Nodup) :
    List.Sorted strLe ((sortTableInPlace t).1.map eKey)
    ∧ (List.Sorted strLe (t.map eKey) → (sortTableInPlace t).2 = 0)
    ∧ (¬ List.Sorted strLe (t.map eKey) → (sortTableInPlace t).2 = 1) := by
  by_cases hg : t.map eKey = List.insertionSort strLe (t.map eKey)
  · have hs : List.Sorted strLe (t.map eKey) := (sort_guard_iff _).mp hg
    have hres : sortTableInPlace t = (t, 0) := by
      unfold sortTableInPlace
      rw [if_pos hg]
    rw [hres]
    exact ⟨hs, fun _ => rfl, fun hns => absurd hs hns⟩
  · have hns : ¬ List.Sorted strLe (t.map eKey) :=
      fun hs => hg ((sort_guard_iff _).mpr hs)
    have hcount : (sortTableInPlace t).2 = 1 := by
      unfold sortTableInPlace
      rw [if_neg hg]
    refine ⟨?_, fun hs => absurd hs hns, fun _ => hcount⟩
    rw [sortTableInPlace_keys t h hg]
    exact List.sorted_insertionSort strLe (t.map eKey)

/-- Witness for C6 on the concrete table `exCommented` (keys
`zebra, alpha`): the sorter reorders them to `alpha, zebra` and reports
one change. -/
theorem claim6_sort_correctness_witness :
    (exCommented.map eKey).Nodup
    ∧ List.Sorted strLe ((sortTableInPlace exCommented).1.map eKey)
    ∧ ¬ List.Sorted strLe (exCommented.map eKey)
    ∧ (sortTableInPlace exCommented).2 = 1 := by
  have h := claim6_sort_correctness exCommented (by decide)
  have hns : ¬ List.Sorted strLe (exCommented.map eKey) := by decide
  exact ⟨by decide, h.1, hns, h.2.2 hns⟩

/-- C9 (counterexample).  The claim says every table processed by the
Table Collapser — including the package section — is marked explicit when
at least one child entry is collapsed.  On `exImplicitPkg` the implicit
`[package]` table has its `metadata` child collapsed (one change is
counted), yet its implicit flag is still `true` afterwards: the
`set_implicit(false)` call exists only in the dependency-section and
target branches of `collapse_nested_tables`, not the package branch. -/
theorem claim9_package_not_marked_explicit :
    (parseLines exImplicitPkg).map
      (fun d =>
        ((collapseNestedTables d).2, pkgImplicitFlag (collapseNestedTables d).1))
      = some (1, some true) := by
  decide

/-- C9 (amended, proved).  The flat dependency sections and each
target-scoped dependency table are marked explicit when at least one of
their child entries is collapsed; the package section's implicit flag is
left unchanged by the Table Collapser.  Part one: for each flat dependency
section whose collapse count is positive, the section's table ends up
explicit (implicit flag `false`) with the collapsed entries.  Part two: for
each `[target.*]` configuration whose `dependencies` table has a positive
collapse count, that table ends up explicit with the collapsed entries. -/
theorem claim9_amended_explicit_marking :
    (∀ (d : Doc) (s : String), s ∈ depSections →
      ∀ (im dt : Bool) (p : Option Nat) (dec : List String) (es : Entries),
        tblGet d.root s = some (Item.table im dt p dec es) →
        0 < (collapseTableEntries es).2 →
        tblGet (collapseNestedTables d).1.root s
          = some (Item.table false dt p dec (collapseTableEntries es).1))
    ∧ (∀ (d : Doc) (im dt : Bool) (p : Option Nat) (dec : List String)
        (es : Entries) (pre : List String) (ck : String) (cim cdt : Bool)
        (cp : Option Nat) (cdec : List String) (ces : Entries)
        (dim ddt : Bool) (dp : Option Nat) (ddec : List String)
        (des : Entries),
        tblGet d.root "target" = some (Item.table im dt p dec es) →
        (pre, ck, Item.table cim cdt cp cdec ces) ∈ es →
        tblGet ces "dependencies" = some (Item.table dim ddt dp ddec des) →
        0 < (collapseTableEntries des).2 →
        ∃ es' : Entries,
          tblGet (collapseNestedTables d).1.root "target"
            = some (Item.table im dt p dec es')
          ∧ (pre, ck, Item.table cim cdt cp cdec
              (replaceItem ces "dependencies"
                (Item.table false ddt dp ddec (collapseTableEntries des).1)))
              ∈ es') := by
  constructor
  · intro d s hs im dt p dec es hget hc
    have hdoc : (collapseNestedTables d).1
        = (collapseTargetStep (collapseDepsFold (collapsePkgStep d).1).1).1 := rfl
    rw [hdoc]
    simp only [depSections, List.mem_cons, List.not_mem_nil, or_false] at hs
    rcases hs with rfl | rfl | rfl
    · have h1 : tblGet (collapsePkgStep d).1.root "dependencies"
          = some (Item.table im dt p dec es) := by
        rw [collapsePkgStep_get_ne _ _ (by decide)]
        exact hget
      rw [collapseTargetStep_get_ne _ _ (by decide), collapseDepsFold_doc,
        collapseDepsSection_get_ne _ _ _ (by decide),
        collapseDepsSection_get_ne _ _ _ (by decide)]
      exact collapseDepsSection_get_self h1 hc
    · have h1 : tblGet (collapseDepsSection (collapsePkgStep d).1
          "dependencies").1.root "dev-dependencies"
          = some (Item.table im dt p dec es) := by
        rw [collapseDepsSection_get_ne _ _ _ (by decide),
          collapsePkgStep_get_ne _ _ (by decide)]
        exact hget
      rw [collapseTargetStep_get_ne _ _ (by decide), collapseDepsFold_doc,
        collapseDepsSection_get_ne _ _ _ (by decide)]
      exact collapseDepsSection_get_self h1 hc
    · have h1 : tblGet (collapseDepsSection (collapseDepsSection
          (collapsePkgStep d).1 "dependencies").1
          "dev-dependencies").1.root "build-dependencies"
          = some (Item.table im dt p dec es) := by
        rw [collapseDepsSection_get_ne _ _ _ (by decide),
          collapseDepsSection_get_ne _ _ _ (by decide),
          collapsePkgStep_get_ne _ _ (by decide)]
        exact hget
      rw [collapseTargetStep_get_ne _ _ (by decide), collapseDepsFold_doc]
      exact collapseDepsSection_get_self h1 hc
  · intro d im dt p dec es pre ck cim cdt cp cdec ces dim ddt dp ddec des
      hget hmem hdeps hc
    have hq : tblGet (collapseDepsFold (collapsePkgStep d).1).1.root "target"
        = some (Item.table im dt p dec es) := by
      rw [collapseDepsFold_get_ne _ _ (by decide),
        collapsePkgStep_get_ne _ _ (by decide)]
      exact hget
    refine ⟨(mapCount collapseTargetOne es).1, ?_, ?_⟩
    · show tblGet (collapseTargetStep
          (collapseDepsFold (collapsePkgStep d).1).1).1.root "target" = _
      exact collapseTargetStep_get_self hq
    · rw [mapCount_fst]
      have hmm := List.mem_map_of_mem
        (fun e : Entry => (e.1, e.2.1, (collapseTargetOne (eItem e)).1)) hmem
      simpa [eItem, collapseTargetOne_eq hdeps hc] using hmm

/-- Witness for the amended C9 on `exTargetDoc`: its `[dependencies]`
section collapses and is marked explicit, and its `cfg1` target-scoped
dependencies table collapses and is marked explicit. -/
theorem claim9_amended_explicit_marking_witness :
    tblGet exTargetDoc.root "dependencies"
      = some (Item.table false false (some 1) [] exTargetDeps)
    ∧ 0 < (collapseTableEntries exTargetDeps).2
    ∧ tblGet (collapseNestedTables exTargetDoc).1.root "dependencies"
        = some (Item.table false false (some 1) []
            (collapseTableEntries exTargetDeps).1) :=
  ⟨rfl, by decide,
   claim9_amended_explicit_marking.1 exTargetDoc "dependencies" (by decide)
     false false (some 1) [] exTargetDeps rfl (by decide)⟩

end FmtToml
